import Mathlib

/-!
Verification of the TradeWise statement-ingestion core, shallowly embedded
from `src/pages/ImportPage.tsx`.  JavaScript numbers are modelled as exact
rationals (`ℚ`); JavaScript `undefined`/`null` become `Option`; mutable maps
from ticker to lot queue become functions `String → List Lot` updated
pointwise; in-place mutation of the row array becomes explicit state passing
over index-tagged rows.  Environment functions that the code calls but does
not define (JavaScript `Date` parsing) are passed in as explicit function
parameters (`dparse`, `isoOf`, `numFmt`).
-/

namespace TradeWise

/-! ### JavaScript string primitives

The JavaScript string methods used by the source (`toLowerCase`, `trim`,
`endsWith`, `includes`, and the underscore-delimited token test of the
quantity regular expression) are modelled on the character list underlying a
`String`, so that every definition evaluates by kernel reduction. -/

/-- Models `s.toLowerCase()` (ASCII, which is all the source compares). -/
def jsToLower (s : String) : String := String.mk (s.data.map Char.toLower)

/-- Models `s.trim()`: strip leading and trailing whitespace. -/
def jsTrim (s : String) : String :=
  String.mk (((s.data.dropWhile Char.isWhitespace).reverse.dropWhile Char.isWhitespace).reverse)

/-- Models `s.endsWith(pat)`. -/
def jsEndsWith (s pat : String) : Bool :=
  pat.data.reverse.isPrefixOf s.data.reverse

/-- Substring test on character lists: does `pat` occur contiguously in `s`? -/
def containsChars (pat : List Char) : List Char → Bool
  | [] => pat.isEmpty
  | c :: rest => pat.isPrefixOf (c :: rest) || containsChars pat rest

/-- Models `s.includes(pat)`. -/
def jsIncludes (s pat : String) : Bool := containsChars pat.data s.data

/-- Split a character list at underscores (components of the key, for the
quantity-matcher pattern). -/
def splitUnderscore : List Char → List (List Char)
  | [] => [[]]
  | c :: rest =>
    let r := splitUnderscore rest
    if c == '_' then [] :: r
    else
      match r with
      | [] => [[c]]
      | g :: gs => (c :: g) :: gs

/-- Embeds `type Lot = { qty: number; price: number; feePerUnit: number; multiplier: number }`. -/
structure Lot where
  qty : ℚ
  price : ℚ
  feePerUnit : ℚ
  multiplier : ℚ
deriving DecidableEq

/-- The fields of `Partial<Trade>` that the ingestion pipeline reads or writes
(`entry_ts`, `date`, `time`, `side`, `type`, `ticker`, `qty`, `pnl`, `change`).
`none` models an absent (`undefined`/`null`) field; the empty string is a
present-but-empty value, which JavaScript treats as falsy where noted. -/
structure PTrade where
  entry_ts : Option String
  date : Option String
  time : Option String
  side : Option String
  type : Option String
  ticker : Option String
  qty : Option ℚ
  pnl : Option ℚ
  change : Option String
deriving DecidableEq

/-- Embeds the `meta` part of `ParsedCsvRow`. -/
structure RowMeta where
  side : String
  qty : Option ℚ
  fillPrice : Option ℚ
  feePerUnit : ℚ
  totalFee : ℚ
  pointValue : ℚ
deriving DecidableEq

/-- Embeds `type ParsedCsvRow = { trade: Partial<Trade>; meta: {...} }`. -/
structure ParsedCsvRow where
  trade : PTrade
  meta : RowMeta
deriving DecidableEq

/-- The literal `1e-8` threshold used by `closeLots`. -/
def eps : ℚ := 1 / 100000000

/-- Embeds the `while (remaining > 0 && lots.length)` loop of `closeLots`,
with the accumulated `realized` as an explicit argument and the mutated `lots`
array returned.  In the branch where the partially consumed head lot is kept
(`lot.qty - matched > 1e-8`), `matched` must equal `remaining` (otherwise
`matched = lot.qty` and the residual would be `0`), so the loop guard
`remaining > 0` fails on the next iteration and the loop exits; the
translation returns there directly. -/
def closeLotsGo : List Lot → ℚ → ℚ → Bool → ℚ → ℚ × ℚ × List Lot
  | [], remaining, _, _, realized => (realized, remaining, [])
  | lot :: rest, remaining, exitPrice, closingLong, realized =>
    if remaining ≤ 0 then (realized, remaining, lot :: rest)
    else
      let matched := min remaining lot.qty
      let priceDelta := if closingLong then exitPrice - lot.price else lot.price - exitPrice
      let mult := if lot.multiplier = 0 then 1 else lot.multiplier
      let realized' := realized + priceDelta * matched * mult - lot.feePerUnit * matched
      let newQty := lot.qty - matched
      let remaining' := remaining - matched
      if newQty ≤ eps then closeLotsGo rest remaining' exitPrice closingLong realized'
      else (realized', remaining', { lot with qty := newQty } :: rest)

/-- Embeds `closeLots(lots, qty, exitPrice, closingLong)`; returns
`(realized, remaining, lots-after-mutation)`. -/
def closeLots (lots : List Lot) (qty exitPrice : ℚ) (closingLong : Bool) : ℚ × ℚ × List Lot :=
  closeLotsGo lots qty exitPrice closingLong 0

/-- Embeds `getTradeTimestamp`.  `dparse` models `s => new Date(s).getTime()`,
returning `none` for `NaN` (unparseable); a non-empty `entry_ts` is tried
first, then the `date`/`time` reconstruction, else `0`. -/
def getTradeTimestamp (dparse : String → Option ℚ) (trade : PTrade) : ℚ :=
  match (match trade.entry_ts with
         | some s => if s = "" then none else dparse s
         | none => none) with
  | some ts => ts
  | none =>
    match trade.date with
    | some d =>
      if d = "" then 0
      else
        let timePart := trade.time.getD "00:00"
        let normalized := if timePart.length = 5 then timePart ++ ":00" else timePart
        let iso := d ++ "T" ++ normalized
        let withZ := if jsEndsWith iso "Z" then iso else iso ++ "Z"
        (dparse withZ).getD 0
    | none => 0

/-- The two per-ticker FIFO queue maps `longLots` / `shortLots` of
`deriveFifoPnl`.  A ticker absent from the `Map` reads as `[]` (the code
always reads with `?? []`), so `Map.delete` is modelled as updating to `[]`. -/
structure FifoState where
  longLots : String → List Lot
  shortLots : String → List Lot

/-- Fresh maps at the start of `deriveFifoPnl`. -/
def initFifoState : FifoState := ⟨fun _ => [], fun _ => []⟩

/-- Pointwise update of a ticker-keyed queue map (`Map.set`). -/
def updateMap (m : String → List Lot) (t : String) (v : List Lot) : String → List Lot :=
  fun s => if s = t then v else m s

/-- Embeds the body of `ordered.forEach((row) => {...})` in `deriveFifoPnl`:
one fill is reconciled against the queues and the row's `pnl` is written.
JavaScript truthiness in the guard: `!ticker` is `none` or `""`, `!qty` is
`none` or `0`, and the price check is `=== undefined || === null`.
`row.meta.totalFee || 0` and `row.meta.feePerUnit || 0` are identities on
exact rationals and are translated as the bare field. -/
def processRow (st : FifoState) (row : ParsedCsvRow) : ParsedCsvRow × FifoState :=
  if (row.trade.pnl).isSome then (row, st)
  else if row.trade.ticker.getD "" = "" ∨ row.meta.qty.getD 0 = 0 ∨ row.meta.fillPrice = none then
    ({ row with trade := { row.trade with pnl := some 0 } }, st)
  else
    let t := row.trade.ticker.getD ""
    let qty := row.meta.qty.getD 0
    let price := (row.meta.fillPrice).getD 0
    let totalFee := row.meta.totalFee
    let qtyTotal := qty
    let feePerUnit := if qtyTotal ≠ 0 then totalFee / qtyTotal else row.meta.feePerUnit
    let pointValue := if row.meta.pointValue = 0 then 1 else row.meta.pointValue
    let normalizedSide := jsToLower row.meta.side
    if normalizedSide = "long" ∨ normalizedSide = "buy" then
      let shortQueue := st.shortLots t
      let res := closeLots shortQueue qty price false
      let realized := res.1
      let remaining := res.2.1
      let shortQueue' := res.2.2
      let closedQty := qty - remaining
      let longLots' :=
        if 0 < remaining then
          updateMap st.longLots t (st.longLots t ++ [⟨remaining, price, feePerUnit, pointValue⟩])
        else st.longLots
      let shortLots' :=
        if shortQueue' ≠ [] then updateMap st.shortLots t (shortQueue'.filter (fun lot => 0 < lot.qty))
        else updateMap st.shortLots t []
      let pnl' : ℚ :=
        if 0 < closedQty then
          realized - (if qtyTotal ≠ 0 then totalFee * (closedQty / qtyTotal) else totalFee)
        else 0
      ({ row with trade := { row.trade with pnl := some pnl' } }, ⟨longLots', shortLots'⟩)
    else if normalizedSide = "short" ∨ normalizedSide = "sell" then
      let longQueue := st.longLots t
      let res := closeLots longQueue qty price true
      let realized := res.1
      let remaining := res.2.1
      let longQueue' := res.2.2
      let closedQty := qty - remaining
      let shortLots' :=
        if 0 < remaining then
          updateMap st.shortLots t (st.shortLots t ++ [⟨remaining, price, feePerUnit, pointValue⟩])
        else st.shortLots
      let longLots' :=
        if longQueue' ≠ [] then updateMap st.longLots t (longQueue'.filter (fun lot => 0 < lot.qty))
        else updateMap st.longLots t []
      let pnl' : ℚ :=
        if 0 < closedQty then
          realized - (if qtyTotal ≠ 0 then totalFee * (closedQty / qtyTotal) else totalFee)
        else 0
      ({ row with trade := { row.trade with pnl := some pnl' } }, ⟨longLots', shortLots'⟩)
    else
      ({ row with trade := { row.trade with pnl := some 0 } }, st)

/-- Runs `processRow` over a list of index-tagged rows, threading the queue
state; the index tags model JavaScript object identity of the mutated rows. -/
def processAll (st : FifoState) : List (Nat × ParsedCsvRow) → List (Nat × ParsedCsvRow) × FifoState
  | [] => ([], st)
  | (i, r) :: rest =>
    let p := processRow st r
    let q := processAll p.2 rest
    ((i, p.1) :: q.1, q.2)

/-- Stable insertion of one index-tagged row into a timestamp-sorted list;
together with `sortRowsByTs` this models the stable
`[...rows].sort((a, b) => getTradeTimestamp(a.trade) - getTradeTimestamp(b.trade))`. -/
def orderedInsertTs (dparse : String → Option ℚ) (a : Nat × ParsedCsvRow) :
    List (Nat × ParsedCsvRow) → List (Nat × ParsedCsvRow)
  | [] => [a]
  | b :: l =>
    if getTradeTimestamp dparse a.2.trade ≤ getTradeTimestamp dparse b.2.trade then a :: b :: l
    else b :: orderedInsertTs dparse a l

/-- Stable sort by reconstructed timestamp (ascending). -/
def sortRowsByTs (dparse : String → Option ℚ) :
    List (Nat × ParsedCsvRow) → List (Nat × ParsedCsvRow)
  | [] => []
  | a :: l => orderedInsertTs dparse a (sortRowsByTs dparse l)

/-- Embeds `deriveFifoPnl`, also exposing the final queue state.  The rows
are tagged with their original positions, a copy is sorted by timestamp and
processed, and each original position is mapped to its processed value
(modelling that `forEach` mutates the shared row objects, so the caller's
array keeps its original order but sees the updated rows). -/
def runFifo (dparse : String → Option ℚ) (rows : List ParsedCsvRow) :
    List ParsedCsvRow × FifoState :=
  let indexed := rows.enum
  let ordered := sortRowsByTs dparse indexed
  let done := processAll initFifoState ordered
  (indexed.map (fun p =>
      match done.1.find? (fun q => q.1 == p.1) with
      | some q => q.2
      | none => p.2),
   done.2)

/-- Embeds `deriveFifoPnl(rows)`: the rows after reconciliation, in their
original order. -/
def deriveFifoPnl (dparse : String → Option ℚ) (rows : List ParsedCsvRow) : List ParsedCsvRow :=
  (runFifo dparse rows).1

/-! ### Field resolution (`findColumnValue` and the matcher tables) -/

/-- Embeds `type ColumnMatcher = string | RegExp | ((key: string) => boolean)`;
regular expressions are modelled as the boolean predicate they decide. -/
inductive ColumnMatcher where
  | exact (s : String)
  | pred (f : String → Bool)

/-- The per-matcher `predicate` built inside `findColumnValue`
(`key === matcher` for a string, `matcher.test(key)` for a pattern or
function). -/
def matcherPredicate : ColumnMatcher → String → Bool
  | .exact s, key => key == s
  | .pred f, key => f key

/-- A record is the JavaScript object built from one CSV row: column keys
paired with cell values, in insertion order. -/
def recordKeys (record : List (String × String)) : List String := record.map (·.1)

/-- Property access `record[foundKey]` (object keys are unique, so first
occurrence). -/
def recordGet (record : List (String × String)) (k : String) : Option String :=
  (record.find? (fun kv => kv.1 == k)).map (·.2)

/-- Embeds `findColumnValue(record, matchers)`: for each matcher in order,
`keys.find(predicate)` picks the first matching column; the source then reads
`foundKey ? record[foundKey] : undefined`, so a found key that is the empty
string (falsy in JavaScript) yields `undefined` and the matcher is skipped;
otherwise the column's value is returned trimmed when non-empty and
non-blank, else the next matcher is tried. -/
def findColumnValue (record : List (String × String)) : List ColumnMatcher → Option String
  | [] => none
  | m :: rest =>
    let foundKey := (recordKeys record).find? (matcherPredicate m)
    let raw := match foundKey with
               | some k => if k = "" then none else recordGet record k
               | none => none
    match raw with
    | some v => if v ≠ "" ∧ jsTrim v ≠ "" then some (jsTrim v) else findColumnValue record rest
    | none => findColumnValue record rest

/-- The pattern `/(^|_)(qty|quantity|contracts?|shares?)($|_)/`: some
underscore-delimited component of the key is one of the listed tokens. -/
def tokenMatch (tokens : List String) (key : String) : Bool :=
  (splitUnderscore key.data).any (fun part => tokens.any (fun t => t.data == part))

/-- Embeds the `quantityMatchers` table. -/
def quantityMatchers : List ColumnMatcher :=
  [.exact "qty", .exact "quantity", .exact "contracts", .exact "shares", .exact "size",
   .exact "filledqty", .exact "filled_qty",
   .pred (tokenMatch ["qty", "quantity", "contract", "contracts", "share", "shares"])]

/-! ### Import payload, fee override and dedup gate (`handleImport`) -/

/-- A JavaScript value stored in an insert-payload field. -/
inductive JsValue where
  | str (s : String)
  | num (q : ℚ)
  | null
deriving DecidableEq

/-- The argument shape of `buildTradeKey` (the fields it reads). -/
structure TradeKeyInput where
  entry_ts : Option String
  ticker : Option String
  side : Option String
  type : Option String
  qty : Option ℚ
  pnl : Option ℚ
  change : Option String

/-- Embeds `buildTradeKey`.  `numFmt` models `value.toFixed(4)` and `isoOf`
models `s => new Date(s).toISOString()`; `normalize` maps null/undefined to
`''`, numbers through `numFmt`, and strings through `toLowerCase`. -/
def buildTradeKey (numFmt : ℚ → String) (isoOf : String → String) (t : TradeKeyInput) : String :=
  let normStr : Option String → String := fun v =>
    match v with
    | none => ""
    | some s => jsToLower s
  let normNum : Option ℚ → String := fun v =>
    match v with
    | none => ""
    | some q => numFmt q
  String.intercalate "|" [
    normStr (match t.entry_ts with
             | some s => if s = "" then some "" else some (isoOf s)
             | none => some ""),
    normStr t.ticker,
    normStr t.side,
    normStr t.type,
    normNum t.qty,
    normNum t.pnl,
    normStr t.change]

/-- Builds one insert payload object from a mapped row, embedding the body of
`filteredRows.map((r) => {...})` in `handleImport` up to the dedup check:
null-coalescing of empty strings (`r.entry_ts || null` etc.), the futures
classification, and the flat per-contract fee override. -/
def mkPayload (userId sourceAccount sourceBroker : String) (feeValue : ℚ) (r : PTrade) :
    List (String × JsValue) :=
  let qtyValue : Option ℚ := r.qty
  let pnlValue : Option ℚ := r.pnl
  let isFuture : Bool := jsIncludes (jsToLower (r.type.getD "")) "future"
  let feeAdjustment : ℚ :=
    if feeValue ≠ 0 ∧ qtyValue.getD 0 ≠ 0 then feeValue * |qtyValue.getD 0| else 0
  let adjustedPnl : Option ℚ :=
    match pnlValue with
    | some p => if isFuture ∧ feeAdjustment ≠ 0 then some (p - feeAdjustment) else some p
    | none => none
  let strOrNull : Option String → JsValue := fun v =>
    match v with
    | some s => if s = "" then .null else .str s
    | none => .null
  [("user_id", .str userId),
   ("entry_ts", strOrNull r.entry_ts),
   ("side", strOrNull r.side),
   ("ticker", strOrNull r.ticker),
   ("type", strOrNull r.type),
   ("qty", match qtyValue with | some q => .num q | none => .null),
   ("pnl", match adjustedPnl with | some q => .num q | none => .null),
   ("change", match r.change with | some s => .str s | none => .null),
   ("source_account", .str sourceAccount),
   ("source_broker", .str sourceBroker)]

/-- Structural field access on a payload object. -/
def getField (p : List (String × JsValue)) (k : String) : Option JsValue :=
  (p.find? (fun kv => kv.1 == k)).map (·.2)

/-- Reads the fields of a payload object that `buildTradeKey(payload)`
consumes. -/
def payloadKeyInput (p : List (String × JsValue)) : TradeKeyInput :=
  let str : String → Option String := fun k =>
    match getField p k with
    | some (.str s) => some s
    | _ => none
  let num : String → Option ℚ := fun k =>
    match getField p k with
    | some (.num q) => some q
    | _ => none
  ⟨str "entry_ts", str "ticker", str "side", str "type", num "qty", num "pnl", str "change"⟩

/-- The key of a payload as `handleImport` computes it: `buildTradeKey(payload)`. -/
def payloadKey (numFmt : ℚ → String) (isoOf : String → String)
    (p : List (String × JsValue)) : String :=
  buildTradeKey numFmt isoOf (payloadKeyInput p)

/-- Embeds the dedup gate of `handleImport`: each mapped row becomes a
payload; a payload whose key is in the running key set (`existingKeys`,
seeded from storage and grown with each admitted row) is dropped, otherwise
its key is added and the payload kept (`.map` returning `null` for
duplicates followed by `.filter(Boolean)`). -/
def admitRows (numFmt : ℚ → String) (isoOf : String → String)
    (userId sourceAccount sourceBroker : String) (feeValue : ℚ)
    (existingKeys : List String) : List PTrade → List (List (String × JsValue))
  | [] => []
  | r :: rs =>
    let payload := mkPayload userId sourceAccount sourceBroker feeValue r
    let key := payloadKey numFmt isoOf payload
    if key ∈ existingKeys then
      admitRows numFmt isoOf userId sourceAccount sourceBroker feeValue existingKeys rs
    else
      payload :: admitRows numFmt isoOf userId sourceAccount sourceBroker feeValue
        (key :: existingKeys) rs

/-! ### Earliest-date cutoff (`handleImport`) -/

/-- Embeds the `filteredRows` filter of `handleImport`: rows with a falsy
`entry_ts` are kept, rows whose `entry_ts` does not parse (`dparse` returns
`none`, modelling `NaN`) are kept, and otherwise the row is kept exactly when
its instant is `>=` the cutoff. -/
def filterByImportStart (dparse : String → Option ℚ) (earliest : ℚ)
    (parsed : List PTrade) : List PTrade :=
  parsed.filter (fun r =>
    match r.entry_ts with
    | none => true
    | some s =>
      if s = "" then true
      else
        match dparse s with
        | none => true
        | some ts => earliest ≤ ts)

/-! ### Specification-side reference definitions and invariants -/

/-- Total quantity held in a lot queue. -/
def sumQty (lots : List Lot) : ℚ := lots.foldr (fun lot acc => lot.qty + acc) 0

/-- Reference definition written from the spec sentence for claim C2: consume
the queue in FIFO (oldest-lot-first) order; each lot contributes
`priceDelta × matched × lot.multiplier − lot.feePerUnit × matched` for
`matched = min(remaining, lot.qty)`, where `priceDelta` is
`lot.price − exitPrice` when closing shorts and `exitPrice − lot.price` when
closing longs. -/
def specFifoRealized (exitPrice : ℚ) (closingLong : Bool) : ℚ → List Lot → ℚ
  | _, [] => 0
  | q, lot :: rest =>
    let m := min q lot.qty
    let priceDelta := if closingLong then exitPrice - lot.price else lot.price - exitPrice
    priceDelta * m * lot.multiplier - lot.feePerUnit * m +
      specFifoRealized exitPrice closingLong (q - m) rest

/-- Reference definition written from claim C5's wording: the first matcher
that has ANY matching column with non-empty trimmed content wins, and the
resolver returns that column's trimmed value. -/
def findColumnValueSpec (record : List (String × String)) : List ColumnMatcher → Option String
  | [] => none
  | m :: rest =>
    match (record.filter (fun kv => matcherPredicate m kv.1)).find? (fun kv => jsTrim kv.2 != "") with
    | some kv => some (jsTrim kv.2)
    | none => findColumnValueSpec record rest

/-- Reference definition for the amended claim C5: for each matcher in order,
only the FIRST matching column (in record column order) is inspected; a
matcher whose first matching column has the empty string as its key is
skipped (the falsy-key check of the source); otherwise the matcher yields
that column's trimmed value when non-empty, else the next matcher is
tried. -/
def findColumnValueAmended (record : List (String × String)) : List ColumnMatcher → Option String
  | [] => none
  | m :: rest =>
    match record.find? (fun kv => matcherPredicate m kv.1) with
    | some kv =>
      if kv.1 = "" then findColumnValueAmended record rest
      else if kv.2 ≠ "" ∧ jsTrim kv.2 ≠ "" then some (jsTrim kv.2)
      else findColumnValueAmended record rest
    | none => findColumnValueAmended record rest

/-- The guard of `deriveFifoPnl` that forces PnL to 0: ticker falsy, quantity
falsy, or fill price null/undefined. -/
def missingFifoData (row : ParsedCsvRow) : Prop :=
  row.trade.ticker.getD "" = "" ∨ row.meta.qty.getD 0 = 0 ∨ row.meta.fillPrice = none

instance (row : ParsedCsvRow) : Decidable (missingFifoData row) := by
  unfold missingFifoData; infer_instance

/-- Replace only the `pnl` field of a row's trade. -/
def setPnl (row : ParsedCsvRow) (v : Option ℚ) : ParsedCsvRow :=
  { row with trade := { row.trade with pnl := v } }

/-- Frame relation between an input row and its reconciled output: only `pnl`
may change, the output `pnl` is present, rows entering with a numeric `pnl`
are untouched, and rows with missing reconciliation data get `pnl = 0`. -/
def frameOk (r r' : ParsedCsvRow) : Prop :=
  r' = setPnl r r'.trade.pnl ∧
  (r'.trade.pnl).isSome = true ∧
  ((r.trade.pnl).isSome = true → r' = r) ∧
  (r.trade.pnl = none → missingFifoData r → r'.trade.pnl = some 0)

/-- Claim C9's invariant: every lot in every queue has strictly positive
quantity. -/
def stateWf (st : FifoState) : Prop :=
  ∀ t, (∀ lot ∈ st.longLots t, 0 < lot.qty) ∧ (∀ lot ∈ st.shortLots t, 0 < lot.qty)

/-! ### Concrete inputs used by counterexamples and witnesses -/

/-- A queue state whose ticker `T` already holds one Long lot (used to refute
claim C1 as literally stated, whose premise only requires the Short queue to
be empty). -/
def cexState : FifoState := ⟨fun s => if s = "T" then [⟨1, 50, 0, 1⟩] else [], fun _ => []⟩

/-- A trade with only ticker and (optionally) pnl populated. -/
def mkBareTrade (tick : Option String) (p : Option ℚ) : PTrade :=
  ⟨none, none, none, none, none, tick, none, p, none⟩

/-- Long-side fill of 1 at 100 on ticker `T`, no commission, multiplier 1. -/
def cexRow1 : ParsedCsvRow := ⟨mkBareTrade (some "T") none, ⟨"Buy", some 1, some 100, 0, 0, 1⟩⟩

/-- Short-side fill of 1 at 105 on ticker `T`, no commission, multiplier 1. -/
def cexRow2 : ParsedCsvRow := ⟨mkBareTrade (some "T") none, ⟨"Sell", some 1, some 105, 0, 0, 1⟩⟩

/-- Long-side fill of 2 at 100 on `NQ`, total commission 2, multiplier 20. -/
def wRow1 : ParsedCsvRow := ⟨mkBareTrade (some "NQ") none, ⟨"Buy", some 2, some 100, 0, 2, 20⟩⟩

/-- Short-side fill of 2 at 105 on `NQ`, zero commission, multiplier 20. -/
def wRow2 : ParsedCsvRow := ⟨mkBareTrade (some "NQ") none, ⟨"Sell", some 2, some 105, 0, 0, 20⟩⟩

/-- A sample timestamp parser for witnesses: `early` parses to 3, `late`
parses to 7, everything else is unparseable. -/
def dparse0 : String → Option ℚ :=
  fun s => if s = "early" then some 3 else if s = "late" then some 7 else none

/-- A sample number formatter standing in for `toFixed(4)` in witnesses. -/
def nf0 : ℚ → String := fun _ => "#"

/-- A sample `Date`-to-ISO canonicalizer for witnesses. -/
def iso0 : String → String := fun s => s

/-- A futures-classified mapped row with quantity 2 and reconciled PnL 100. -/
def futRow : PTrade :=
  ⟨none, none, none, some "Long", some "Future", some "NQ", some 2, some 100, none⟩

/-- A stock-classified mapped row with quantity 2 and PnL 100. -/
def stockRow : PTrade :=
  ⟨none, none, none, some "Long", some "Stock", some "NQ", some 2, some 100, none⟩

/-- Rows for the date-cutoff witness: one before the cutoff, one after, one
with an unparseable timestamp. -/
def cutRowEarly : PTrade := ⟨some "early", none, none, none, none, some "NQ", none, none, none⟩

/-- Row at/after the cutoff for the date-cutoff witness. -/
def cutRowLate : PTrade := ⟨some "late", none, none, none, none, some "NQ", none, none, none⟩

/-- Row with an unparseable timestamp for the date-cutoff witness. -/
def cutRowBad : PTrade := ⟨some "junk", none, none, none, none, some "NQ", none, none, none⟩

/-- A row missing ticker, quantity and price, with no pre-set PnL. -/
def cmRow : ParsedCsvRow := ⟨mkBareTrade none none, ⟨"Buy", none, none, 0, 0, 1⟩⟩

/-- A row that enters reconciliation with a numeric PnL already set. -/
def pRow : ParsedCsvRow := ⟨mkBareTrade (some "NQ") (some 7), ⟨"Buy", some 1, some 100, 0, 0, 1⟩⟩

/-! ## Theorems -/

/-! ### C8: fields of the insert payload -/

/-- C8, counterexample: the claim asserts every record submitted to the
storage insert carries `date` and `time` fields, but the payload object
built in `handleImport` has no such fields for any row (shown here on a
concrete futures row). -/
theorem c8_counterexample :
    "date" ∉ (mkPayload "u" "Acct" "Tradovate" 0 futRow).map Prod.fst ∧
    "time" ∉ (mkPayload "u" "Acct" "Tradovate" 0 futRow).map Prod.fst := by decide

/-- C8, amended: every record submitted to the storage insert carries exactly
the fields `user_id`, `entry_ts` (nullable timestamp), `side`, `ticker`,
`type`, `qty` (nullable number), `pnl` (nullable number), `change`,
`source_account` and `source_broker` — and no separate `date`/`time`
fields. -/
theorem c8_payload_fields (userId sourceAccount sourceBroker : String) (feeValue : ℚ)
    (r : PTrade) :
    (mkPayload userId sourceAccount sourceBroker feeValue r).map Prod.fst =
      ["user_id", "entry_ts", "side", "ticker", "type", "qty", "pnl", "change",
       "source_account", "source_broker"] := rfl

/-! ### C6: flat per-contract fee override -/

/-- C6: for a row classified as a futures type (its `type`, lower-cased,
contains `future`) with numeric quantity `q` and numeric reconciled PnL `p`,
a nonzero flat per-contract fee override `f` makes the submitted PnL exactly
`p - f * |q|` — the deduction is applied to whatever `p` reconciliation
produced, hence additive to any commission already subtracted there — and
rows not classified as futures keep their PnL unchanged. -/
theorem c6_fee_override (userId sourceAccount sourceBroker : String) (f : ℚ) (r : PTrade) :
    (∀ p q, jsIncludes (jsToLower (r.type.getD "")) "future" = true →
        r.pnl = some p → r.qty = some q → f ≠ 0 →
        getField (mkPayload userId sourceAccount sourceBroker f r) "pnl" =
          some (.num (p - f * |q|))) ∧
    (jsIncludes (jsToLower (r.type.getD "")) "future" = false →
        getField (mkPayload userId sourceAccount sourceBroker f r) "pnl" =
          some (match r.pnl with | some p => JsValue.num p | none => JsValue.null)) := by
  constructor
  · intro p q hfut hp hq hf
    by_cases hq0 : q = 0
    · subst hq0
      simp [mkPayload, getField, hp, hq, hf, hfut]
    · simp [mkPayload, getField, hp, hq, hf, hfut, hq0, abs_eq_zero]
  · intro hfut
    cases hhp : r.pnl with
    | none => simp [mkPayload, getField, hhp, hfut]
    | some p => simp [mkPayload, getField, hhp, hfut]

/-- C6, witness: a futures row with PnL 100, quantity 2 and override 5/2 is
submitted with PnL 95; the same row classified as stock keeps PnL 100. -/
theorem c6_fee_override_witness :
    getField (mkPayload "u" "A" "B" (5/2) futRow) "pnl" = some (.num 95) ∧
    getField (mkPayload "u" "A" "B" (5/2) stockRow) "pnl" = some (.num 100) := by
  constructor
  · have h := (c6_fee_override "u" "A" "B" (5/2) futRow).1 100 2 (by decide) rfl rfl (by norm_num)
    norm_num at h
    exact h
  · have h := (c6_fee_override "u" "A" "B" (5/2) stockRow).2 (by decide)
    simpa using h

/-! ### C7: earliest-date cutoff -/

/-- C7: given a cutoff, a mapped row whose timestamp parses to an instant
before the cutoff is dropped, a row whose timestamp parses at or after the
cutoff is kept, and a row whose timestamp is absent (or empty) or
unparseable is kept regardless of the cutoff. -/
theorem c7_date_cutoff (dparse : String → Option ℚ) (earliest : ℚ) (rows : List PTrade)
    (r : PTrade) (hr : r ∈ rows) :
    (∀ s ts, r.entry_ts = some s → s ≠ "" → dparse s = some ts → ts < earliest →
        r ∉ filterByImportStart dparse earliest rows) ∧
    (∀ s ts, r.entry_ts = some s → s ≠ "" → dparse s = some ts → earliest ≤ ts →
        r ∈ filterByImportStart dparse earliest rows) ∧
    ((r.entry_ts = none ∨ r.entry_ts = some "" ∨
        (∃ s, r.entry_ts = some s ∧ dparse s = none)) →
      r ∈ filterByImportStart dparse earliest rows) := by
  refine ⟨?_, ?_, ?_⟩
  · intro s ts hs hne hts hlt hmem
    rw [filterByImportStart, List.mem_filter, hs] at hmem
    simp [hne, hts] at hmem
    exact absurd hmem.2 (not_le.mpr hlt)
  · intro s ts hs hne hts hle
    rw [filterByImportStart, List.mem_filter, hs]
    simp [hne, hts]
    exact ⟨hr, hle⟩
  · intro h
    rw [filterByImportStart, List.mem_filter]
    rcases h with h | h | ⟨s, hs, hn⟩
    · simp [h, hr]
    · simp [h, hr]
    · simp [hs, hn, hr]

/-- C7, witness: with cutoff 5 and a parser sending `early` to 3 and `late`
to 7, the early row is dropped while the late row and the unparseable row
are kept. -/
theorem c7_date_cutoff_witness :
    cutRowEarly ∉ filterByImportStart dparse0 5 [cutRowEarly, cutRowLate, cutRowBad] ∧
    cutRowLate ∈ filterByImportStart dparse0 5 [cutRowEarly, cutRowLate, cutRowBad] ∧
    cutRowBad ∈ filterByImportStart dparse0 5 [cutRowEarly, cutRowLate, cutRowBad] :=
  ⟨(c7_date_cutoff dparse0 5 _ cutRowEarly (by decide)).1 "early" 3 rfl (by decide)
      (by decide) (by decide),
   (c7_date_cutoff dparse0 5 _ cutRowLate (by decide)).2.1 "late" 7 rfl (by decide)
      (by decide) (by decide),
   (c7_date_cutoff dparse0 5 _ cutRowBad (by decide)).2.2 (Or.inr (Or.inr ⟨"junk", rfl, by decide⟩))⟩

/-! ### C5: field resolution -/

/-- C5, counterexample: for the record `{x_qty: "", y_qty: "9"}`, the quantity
pattern matcher matches both columns and `y_qty` holds non-empty content, so
the claim ("the first matcher that has any matching column with non-empty
content wins") predicts `"9"`; the code inspects only the first matching
column (`keys.find`), finds it blank, and resolves to absent. -/
theorem c5_counterexample :
    findColumnValue [("x_qty", ""), ("y_qty", "9")] quantityMatchers = none ∧
    findColumnValueSpec [("x_qty", ""), ("y_qty", "9")] quantityMatchers = some "9" := by
  constructor <;> decide

/-- Reading `record[kv.1]` for the first entry `kv` whose key satisfies a
predicate returns that entry's own value: an earlier entry with the same key
would itself satisfy the predicate, contradicting firstness. -/
theorem recordGet_of_find? (record : List (String × String)) (p : String → Bool)
    (kv : String × String) (hf : record.find? (fun x => p x.1) = some kv) :
    recordGet record kv.1 = some kv.2 := by
  induction record with
  | nil => simp at hf
  | cons a rest ih =>
    by_cases h : p a.1
    · have hfa : (a :: rest).find? (fun x => p x.1) = some a :=
        List.find?_cons_of_pos _ (by simpa using h)
      rw [hfa] at hf
      obtain rfl : a = kv := by simpa using hf
      simp [recordGet]
    · have hfa : (a :: rest).find? (fun x => p x.1) = rest.find? (fun x => p x.1) :=
        List.find?_cons_of_neg _ (by simpa using h)
      rw [hfa] at hf
      have hk : p kv.1 = true := by simpa using List.find?_some hf
      have hne : ¬((fun x => x.1 == kv.1) a = true) := by
        simp only [beq_iff_eq]
        intro he
        rw [he, hk] at h
        exact h rfl
      have hstep : List.find? (fun x => x.1 == kv.1) (a :: rest) =
          List.find? (fun x => x.1 == kv.1) rest :=
        List.find?_cons_of_neg _ hne
      unfold recordGet
      rw [hstep]
      exact ih hf

/-- The code's resolution rule, characterized matcher by matcher: each
matcher inspects only its first matching column. -/
theorem findColumnValue_eq_amended (record : List (String × String)) :
    ∀ matchers, findColumnValue record matchers = findColumnValueAmended record matchers := by
  intro matchers
  induction matchers with
  | nil => rfl
  | cons m rest ih =>
    simp only [findColumnValue, findColumnValueAmended, recordKeys, List.find?_map,
      Function.comp_def]
    cases hf : record.find? (fun kv => matcherPredicate m kv.1) with
    | none => simpa using ih
    | some kv =>
      simp only [Option.map_some']
      by_cases hk : kv.1 = ""
      · rw [if_pos hk, if_pos hk]
        simpa using ih
      · rw [if_neg hk, if_neg hk]
        rw [recordGet_of_find? record _ kv hf]
        simp [ih]

/-- C5, amended: field resolution returns, for the first matcher (in list
order) whose FIRST matching column has a non-empty key and non-empty trimmed
content, that column's trimmed value; a matcher whose first matching column
is blank — or whose first matching column's key is the empty string, which
JavaScript treats as falsy — is skipped even if a later column matches it
with content; absent when no matcher yields content.  Matcher priority still
outranks column order: a record with both `qty` and `filled_qty` populated
resolves to the `qty` value. -/
theorem c5_field_resolution (record : List (String × String)) (matchers : List ColumnMatcher) :
    findColumnValue record matchers = findColumnValueAmended record matchers ∧
    (∀ v w, jsTrim v ≠ "" →
      findColumnValue [("qty", v), ("filled_qty", w)] quantityMatchers = some (jsTrim v)) := by
  refine ⟨findColumnValue_eq_amended record matchers, ?_⟩
  intro v w hv
  have hv' : v ≠ "" := by
    intro h
    rw [h] at hv
    exact hv rfl
  simp [findColumnValue, quantityMatchers, recordKeys, recordGet, matcherPredicate,
    List.find?_cons, hv, hv']

/-- C5, amended claim witness: the record `{qty: " 5 ", filled_qty: "7"}`
resolves to `"5"`. -/
theorem c5_field_resolution_witness :
    findColumnValue [("qty", " 5 "), ("filled_qty", "7")] quantityMatchers = some "5" :=
  (c5_field_resolution [("qty", " 5 "), ("filled_qty", "7")] quantityMatchers).2 " 5 " "7"
    (by decide)

/-! ### C4: dedup gate -/

/-- No admitted payload's key was in the seed the gate started from. -/
theorem admitRows_not_mem_seed (numFmt : ℚ → String) (isoOf : String → String)
    (userId sourceAccount sourceBroker : String) (feeValue : ℚ) :
    ∀ (rows : List PTrade) (seed : List String) (p : List (String × JsValue)),
      p ∈ admitRows numFmt isoOf userId sourceAccount sourceBroker feeValue seed rows →
      payloadKey numFmt isoOf p ∉ seed := by
  intro rows
  induction rows with
  | nil =>
    intro seed p hp
    simp [admitRows] at hp
  | cons r rs ih =>
    intro seed p hp
    simp only [admitRows] at hp
    by_cases hk :
        payloadKey numFmt isoOf (mkPayload userId sourceAccount sourceBroker feeValue r) ∈ seed
    · rw [if_pos hk] at hp
      exact ih seed p hp
    · rw [if_neg hk] at hp
      rcases List.mem_cons.mp hp with rfl | hp'
      · exact hk
      · intro hs
        exact (ih _ p hp') (List.mem_cons_of_mem _ hs)

/-- Every input row's key ends up either in the seed (it was dropped as
pre-existing) or among the keys of the admitted payloads. -/
theorem admitRows_covers (numFmt : ℚ → String) (isoOf : String → String)
    (userId sourceAccount sourceBroker : String) (feeValue : ℚ) :
    ∀ (rows : List PTrade) (seed : List String) (r : PTrade), r ∈ rows →
      payloadKey numFmt isoOf (mkPayload userId sourceAccount sourceBroker feeValue r) ∈ seed ∨
      payloadKey numFmt isoOf (mkPayload userId sourceAccount sourceBroker feeValue r) ∈
        (admitRows numFmt isoOf userId sourceAccount sourceBroker feeValue seed rows).map
          (payloadKey numFmt isoOf) := by
  intro rows
  induction rows with
  | nil =>
    intro seed r hr
    simp at hr
  | cons a rs ih =>
    intro seed r hr
    simp only [admitRows]
    by_cases hk :
        payloadKey numFmt isoOf (mkPayload userId sourceAccount sourceBroker feeValue a) ∈ seed
    · rw [if_pos hk]
      rcases List.mem_cons.mp hr with rfl | hr'
      · exact Or.inl hk
      · exact ih seed r hr'
    · rw [if_neg hk]
      rcases List.mem_cons.mp hr with rfl | hr'
      · right
        simp
      · rcases ih (payloadKey numFmt isoOf
            (mkPayload userId sourceAccount sourceBroker feeValue a) :: seed) r hr' with h | h
        · rcases List.mem_cons.mp h with heq | hs
          · right
            rw [List.map_cons, heq]
            exact List.mem_cons_self _ _
          · exact Or.inl hs
        · right
          rw [List.map_cons]
          exact List.mem_cons_of_mem _ h

/-- If every row's key is already in the seed, nothing is admitted. -/
theorem admitRows_nil_of_all_mem (numFmt : ℚ → String) (isoOf : String → String)
    (userId sourceAccount sourceBroker : String) (feeValue : ℚ) :
    ∀ (rows : List PTrade) (seed : List String),
      (∀ r ∈ rows,
        payloadKey numFmt isoOf (mkPayload userId sourceAccount sourceBroker feeValue r) ∈ seed) →
      admitRows numFmt isoOf userId sourceAccount sourceBroker feeValue seed rows = [] := by
  intro rows
  induction rows with
  | nil =>
    intro seed _
    rfl
  | cons a rs ih =>
    intro seed h
    simp only [admitRows]
    rw [if_pos (h a (List.mem_cons_self a rs))]
    exact ih seed (fun r hr => h r (List.mem_cons_of_mem _ hr))

/-- The keys of the admitted payloads are pairwise distinct. -/
theorem admitRows_keys_nodup (numFmt : ℚ → String) (isoOf : String → String)
    (userId sourceAccount sourceBroker : String) (feeValue : ℚ) :
    ∀ (rows : List PTrade) (seed : List String),
      ((admitRows numFmt isoOf userId sourceAccount sourceBroker feeValue seed rows).map
        (payloadKey numFmt isoOf)).Nodup := by
  intro rows
  induction rows with
  | nil =>
    intro seed
    simp [admitRows]
  | cons a rs ih =>
    intro seed
    simp only [admitRows]
    by_cases hk :
        payloadKey numFmt isoOf (mkPayload userId sourceAccount sourceBroker feeValue a) ∈ seed
    · rw [if_pos hk]
      exact ih seed
    · rw [if_neg hk]
      simp only [List.map_cons, List.nodup_cons]
      refine ⟨?_, ih _⟩
      intro hmem
      obtain ⟨p, hp, hkey⟩ := List.mem_map.mp hmem
      have hnot := admitRows_not_mem_seed numFmt isoOf userId sourceAccount sourceBroker
        feeValue rs _ p hp
      rw [hkey] at hnot
      exact hnot (List.mem_cons_self _ _)

/-- C4: the dedup gate drops exactly the rows whose TradeKey is already in
the running key set (seeded from storage or admitted earlier in the same
batch) and admits the rest while adding their keys: no admitted key was in
the seed, admitted keys are pairwise distinct, every input row's key is
accounted for in the seed or the admitted keys, and re-running the gate on
the same batch with the seed grown by the admitted keys (the state after the
insert) admits zero rows — the all-duplicates outcome of a second identical
import. -/
theorem c4_dedup_gate (numFmt : ℚ → String) (isoOf : String → String)
    (userId sourceAccount sourceBroker : String) (feeValue : ℚ)
    (seed : List String) (rows : List PTrade) :
    (∀ p ∈ admitRows numFmt isoOf userId sourceAccount sourceBroker feeValue seed rows,
        payloadKey numFmt isoOf p ∉ seed) ∧
    ((admitRows numFmt isoOf userId sourceAccount sourceBroker feeValue seed rows).map
        (payloadKey numFmt isoOf)).Nodup ∧
    (∀ r ∈ rows,
        payloadKey numFmt isoOf (mkPayload userId sourceAccount sourceBroker feeValue r) ∈ seed ∨
        payloadKey numFmt isoOf (mkPayload userId sourceAccount sourceBroker feeValue r) ∈
          (admitRows numFmt isoOf userId sourceAccount sourceBroker feeValue seed rows).map
            (payloadKey numFmt isoOf)) ∧
    admitRows numFmt isoOf userId sourceAccount sourceBroker feeValue
      ((admitRows numFmt isoOf userId sourceAccount sourceBroker feeValue seed rows).map
          (payloadKey numFmt isoOf) ++ seed) rows = [] := by
  refine ⟨fun p hp => admitRows_not_mem_seed numFmt isoOf userId sourceAccount sourceBroker
      feeValue rows seed p hp,
    admitRows_keys_nodup numFmt isoOf userId sourceAccount sourceBroker feeValue rows seed,
    fun r hr => admitRows_covers numFmt isoOf userId sourceAccount sourceBroker feeValue
      rows seed r hr, ?_⟩
  apply admitRows_nil_of_all_mem
  intro r hr
  rcases admitRows_covers numFmt isoOf userId sourceAccount sourceBroker feeValue
      rows seed r hr with h | h
  · exact List.mem_append.mpr (Or.inr h)
  · exact List.mem_append.mpr (Or.inl h)

/-- C4, witness: a one-row batch against an empty seed — the admitted row's
key was not pre-existing, the row's key is accounted for, and re-running the
gate with the grown seed admits nothing. -/
theorem c4_dedup_gate_witness :
    payloadKey nf0 iso0 (mkPayload "u" "A" "B" 0 futRow) ∉ ([] : List String) ∧
    (payloadKey nf0 iso0 (mkPayload "u" "A" "B" 0 futRow) ∈ ([] : List String) ∨
      payloadKey nf0 iso0 (mkPayload "u" "A" "B" 0 futRow) ∈
        (admitRows nf0 iso0 "u" "A" "B" 0 [] [futRow]).map (payloadKey nf0 iso0)) ∧
    admitRows nf0 iso0 "u" "A" "B" 0
      ((admitRows nf0 iso0 "u" "A" "B" 0 [] [futRow]).map (payloadKey nf0 iso0) ++ [])
      [futRow] = [] := by
  have h := c4_dedup_gate nf0 iso0 "u" "A" "B" 0 [] [futRow]
  exact ⟨h.1 (mkPayload "u" "A" "B" 0 futRow) (by decide), h.2.2.1 futRow (by decide), h.2.2.2⟩


/-! ### FIFO lot-closing: spec-level characterization (C2, C9 helpers) -/

/-- Queues of strictly positive lots have nonnegative total quantity. -/
theorem sumQty_nonneg : ∀ lots : List Lot, (∀ lot ∈ lots, 0 < lot.qty) → 0 ≤ sumQty lots := by
  intro lots
  induction lots with
  | nil =>
    intro _
    simp [sumQty]
  | cons lot rest ih =>
    intro h
    have h1 : 0 < lot.qty := h lot (List.mem_cons_self _ _)
    have h2 : 0 ≤ sumQty rest := ih (fun l hl => h l (List.mem_cons_of_mem _ hl))
    simp only [sumQty, List.foldr_cons]
    have hr : sumQty rest = rest.foldr (fun l acc => l.qty + acc) 0 := rfl
    rw [← hr]
    positivity

/-- A zero-quantity fill realizes nothing against a nonnegative queue. -/
theorem specFifoRealized_zero (p : ℚ) (b : Bool) :
    ∀ lots : List Lot, (∀ lot ∈ lots, 0 ≤ lot.qty) → specFifoRealized p b 0 lots = 0 := by
  intro lots
  induction lots with
  | nil =>
    intro _
    rfl
  | cons lot rest ih =>
    intro h
    have hq : 0 ≤ lot.qty := h lot (List.mem_cons_self _ _)
    simp only [specFifoRealized]
    rw [min_eq_left hq]
    simp only [mul_zero, zero_mul, sub_zero, zero_sub, neg_zero, zero_add, sub_self]
    rw [ih (fun l hl => h l (List.mem_cons_of_mem _ hl))]

/-- The `realized` accumulated by the `closeLots` loop is exactly the
spec-side FIFO sum: oldest lot first, `priceDelta × matched × multiplier −
feePerUnit × matched` per lot, up to the matched quantity. -/
theorem closeLotsGo_realized (p : ℚ) (b : Bool) :
    ∀ (lots : List Lot) (q acc : ℚ),
      (∀ lot ∈ lots, 0 < lot.qty ∧ lot.multiplier ≠ 0) → 0 ≤ q →
      (closeLotsGo lots q p b acc).1 = acc + specFifoRealized p b q lots := by
  intro lots
  induction lots with
  | nil =>
    intro q acc _ _
    simp [closeLotsGo, specFifoRealized]
  | cons lot rest ih =>
    intro q acc hwf hq
    obtain ⟨hlq, hlm⟩ := hwf lot (List.mem_cons_self _ _)
    have hwf' : ∀ l ∈ rest, 0 < l.qty ∧ l.multiplier ≠ 0 :=
      fun l hl => hwf l (List.mem_cons_of_mem _ hl)
    by_cases hq0 : q ≤ 0
    · have hq0' : q = 0 := le_antisymm hq0 hq
      subst hq0'
      simp only [closeLotsGo, if_pos (le_refl (0:ℚ))]
      rw [specFifoRealized_zero p b _ (fun l hl => le_of_lt (hwf l hl).1)]
      ring
    · push_neg at hq0
      simp only [closeLotsGo, if_neg (not_le.mpr hq0)]
      rw [if_neg hlm]
      by_cases hshift : lot.qty - min q lot.qty ≤ eps
      · rw [if_pos hshift]
        rw [ih (q - min q lot.qty) _ hwf'
          (by simp [sub_nonneg, min_le_left])]
        simp only [specFifoRealized]
        ring
      · rw [if_neg hshift]
        have hmin : min q lot.qty = q := by
          rcases le_total q lot.qty with h | h
          · exact min_eq_left h
          · exfalso
            apply hshift
            rw [min_eq_right h]
            have heps : (0:ℚ) < eps := by norm_num [eps]
            linarith
        simp only [specFifoRealized]
        rw [hmin, sub_self,
          specFifoRealized_zero p b rest (fun l hl => le_of_lt (hwf' l hl).1)]
        ring


/-- The unmatched remainder of the loop equals the fill quantity minus the
queue's total, clamped at zero. -/
theorem closeLotsGo_remaining (p : ℚ) (b : Bool) :
    ∀ (lots : List Lot) (q acc : ℚ),
      (∀ lot ∈ lots, 0 < lot.qty) → 0 ≤ q →
      (closeLotsGo lots q p b acc).2.1 = max (q - sumQty lots) 0 := by
  intro lots
  induction lots with
  | nil =>
    intro q acc _ hq
    simp [closeLotsGo, sumQty, max_eq_left hq]
  | cons lot rest ih =>
    intro q acc hwf hq
    have hlq : 0 < lot.qty := hwf lot (List.mem_cons_self _ _)
    have hwf' : ∀ l ∈ rest, 0 < l.qty := fun l hl => hwf l (List.mem_cons_of_mem _ hl)
    have hsum : 0 ≤ sumQty rest := sumQty_nonneg rest hwf'
    have hsumc : sumQty (lot :: rest) = lot.qty + sumQty rest := rfl
    by_cases hq0 : q ≤ 0
    · have hq0' : q = 0 := le_antisymm hq0 hq
      subst hq0'
      simp only [closeLotsGo, if_pos (le_refl (0:ℚ))]
      rw [hsumc]
      rw [max_eq_right (by linarith)]
    · push_neg at hq0
      simp only [closeLotsGo, if_neg (not_le.mpr hq0)]
      by_cases hshift : lot.qty - min q lot.qty ≤ eps
      · rw [if_pos hshift]
        rw [ih (q - min q lot.qty) _ hwf' (by simp [sub_nonneg, min_le_left])]
        rcases le_total q lot.qty with h | h
        · rw [min_eq_left h, hsumc]
          rw [max_eq_right (by linarith), max_eq_right (by linarith)]
        · rw [min_eq_right h, hsumc]
          congr 1
          ring
      · rw [if_neg hshift]
        have heps : (0:ℚ) < eps := by norm_num [eps]
        have hlt : q < lot.qty := by
          rcases le_total q lot.qty with h | h
          · rcases lt_or_eq_of_le h with h' | h'
            · exact h'
            · exfalso
              apply hshift
              rw [h', min_self]
              linarith
          · exfalso
            apply hshift
            rw [min_eq_right h]
            linarith
        rw [min_eq_left (le_of_lt hlt), hsumc]
        rw [max_eq_right (by linarith)]
        ring

/-- Every lot left in the queue by the loop is either an untouched original
lot or has quantity strictly above the `1e-8` removal threshold. -/
theorem closeLotsGo_queue_mem :
    ∀ (lots : List Lot) (q acc exitPrice : ℚ) (b : Bool),
      ∀ lot ∈ (closeLotsGo lots q exitPrice b acc).2.2, lot ∈ lots ∨ eps < lot.qty := by
  intro lots
  induction lots with
  | nil =>
    intro q acc p b lot hl
    simp [closeLotsGo] at hl
  | cons a rest ih =>
    intro q acc p b lot hl
    simp only [closeLotsGo] at hl
    by_cases hq0 : q ≤ 0
    · rw [if_pos hq0] at hl
      exact Or.inl hl
    · rw [if_neg hq0] at hl
      by_cases hshift : a.qty - min q a.qty ≤ eps
      · rw [if_pos hshift] at hl
        rcases ih _ _ p b lot hl with h | h
        · exact Or.inl (List.mem_cons_of_mem _ h)
        · exact Or.inr h
      · rw [if_neg hshift] at hl
        rcases List.mem_cons.mp hl with rfl | h
        · right
          simpa using lt_of_not_le hshift
        · exact Or.inl (List.mem_cons_of_mem _ h)


/-! ### C2: per-fill FIFO matching -/

theorem sumQty_pos_of_ne_nil (lots : List Lot) (h : ∀ lot ∈ lots, 0 < lot.qty)
    (hne : lots ≠ []) : 0 < sumQty lots := by
  cases lots with
  | nil => exact absurd rfl hne
  | cons a rest =>
    have h1 : 0 < a.qty := h a (List.mem_cons_self _ _)
    have h2 : 0 ≤ sumQty rest :=
      sumQty_nonneg rest (fun l hl => h l (List.mem_cons_of_mem _ hl))
    have hc : sumQty (a :: rest) = a.qty + sumQty rest := rfl
    rw [hc]
    linarith

theorem c2_buy_case (st : FifoState) (row : ParsedCsvRow) (t : String) (q P : ℚ)
    (hpnlN : row.trade.pnl = none)
    (htick : row.trade.ticker = some t) (htne : t ≠ "")
    (hqty : row.meta.qty = some q) (hQpos : 0 < q)
    (hprice : row.meta.fillPrice = some P)
    (hside : jsToLower row.meta.side = "long" ∨ jsToLower row.meta.side = "buy")
    (hwf : ∀ lot ∈ st.shortLots t, 0 < lot.qty ∧ lot.multiplier ≠ 0) :
    (processRow st row).1.trade.pnl =
      some (specFifoRealized P false q (st.shortLots t) -
        row.meta.totalFee * ((q - max (q - sumQty (st.shortLots t)) 0) / q)) ∧
    (row.meta.pointValue ≠ 0 →
      (processRow st row).2.longLots t =
        (if 0 < max (q - sumQty (st.shortLots t)) 0 then
          st.longLots t ++ [⟨max (q - sumQty (st.shortLots t)) 0, P,
            row.meta.totalFee / q, row.meta.pointValue⟩]
        else st.longLots t)) := by
  have hpnl : (row.trade.pnl).isSome = false := by rw [hpnlN]; rfl
  have hqne : q ≠ 0 := ne_of_gt hQpos
  have hwfq : ∀ lot ∈ st.shortLots t, 0 < lot.qty := fun l hl => (hwf l hl).1
  have hS0 : 0 ≤ sumQty (st.shortLots t) := sumQty_nonneg _ hwfq
  have hreal : (closeLots (st.shortLots t) q P false).1 =
      specFifoRealized P false q (st.shortLots t) := by
    rw [closeLots, closeLotsGo_realized P false (st.shortLots t) q 0 hwf (le_of_lt hQpos),
      zero_add]
  have hrem : (closeLots (st.shortLots t) q P false).2.1 =
      max (q - sumQty (st.shortLots t)) 0 := by
    rw [closeLots]
    exact closeLotsGo_remaining P false (st.shortLots t) q 0 hwfq (le_of_lt hQpos)
  have hguard2 : ¬(t = "" ∨ q = 0 ∨ (some P : Option ℚ) = none) := by
    push_neg
    exact ⟨htne, hqne, by simp⟩
  simp only [processRow, hpnl, Bool.false_eq_true, if_false, htick, hqty, hprice,
    Option.getD_some, if_neg hguard2, if_pos hside]
  constructor
  · simp only [hrem, hreal, if_pos hqne]
    rcases lt_or_le 0 (q - max (q - sumQty (st.shortLots t)) 0) with h | h
    · rw [if_pos h]
    · rw [if_neg (not_lt.mpr h)]
      have hmaxle : max (q - sumQty (st.shortLots t)) 0 ≤ q :=
        max_le (by linarith) (le_of_lt hQpos)
      have hmaxq : max (q - sumQty (st.shortLots t)) 0 = q :=
        le_antisymm hmaxle (by linarith)
      have hqnil : st.shortLots t = [] := by
        by_contra hne
        have hSpos := sumQty_pos_of_ne_nil _ hwfq hne
        rcases max_cases (q - sumQty (st.shortLots t)) 0 with ⟨hm, _⟩ | ⟨hm, _⟩ <;>
          rw [hm] at hmaxq <;> linarith
      rw [hmaxq, hqnil]
      simp [specFifoRealized]
  · intro hpv
    simp only [hrem]
    by_cases hpos : 0 < max (q - sumQty (st.shortLots t)) 0
    · rw [if_pos hpos, if_pos hpos]
      simp [updateMap, hqne, hpv]
    · rw [if_neg hpos, if_neg hpos]

theorem c2_sell_case (st : FifoState) (row : ParsedCsvRow) (t : String) (q P : ℚ)
    (hpnlN : row.trade.pnl = none)
    (htick : row.trade.ticker = some t) (htne : t ≠ "")
    (hqty : row.meta.qty = some q) (hQpos : 0 < q)
    (hprice : row.meta.fillPrice = some P)
    (hside : jsToLower row.meta.side = "short" ∨ jsToLower row.meta.side = "sell")
    (hwf : ∀ lot ∈ st.longLots t, 0 < lot.qty ∧ lot.multiplier ≠ 0) :
    (processRow st row).1.trade.pnl =
      some (specFifoRealized P true q (st.longLots t) -
        row.meta.totalFee * ((q - max (q - sumQty (st.longLots t)) 0) / q)) ∧
    (row.meta.pointValue ≠ 0 →
      (processRow st row).2.shortLots t =
        (if 0 < max (q - sumQty (st.longLots t)) 0 then
          st.shortLots t ++ [⟨max (q - sumQty (st.longLots t)) 0, P,
            row.meta.totalFee / q, row.meta.pointValue⟩]
        else st.shortLots t)) := by
  have hpnl : (row.trade.pnl).isSome = false := by rw [hpnlN]; rfl
  have hqne : q ≠ 0 := ne_of_gt hQpos
  have hwfq : ∀ lot ∈ st.longLots t, 0 < lot.qty := fun l hl => (hwf l hl).1
  have hS0 : 0 ≤ sumQty (st.longLots t) := sumQty_nonneg _ hwfq
  have hreal : (closeLots (st.longLots t) q P true).1 =
      specFifoRealized P true q (st.longLots t) := by
    rw [closeLots, closeLotsGo_realized P true (st.longLots t) q 0 hwf (le_of_lt hQpos),
      zero_add]
  have hrem : (closeLots (st.longLots t) q P true).2.1 =
      max (q - sumQty (st.longLots t)) 0 := by
    rw [closeLots]
    exact closeLotsGo_remaining P true (st.longLots t) q 0 hwfq (le_of_lt hQpos)
  have hguard2 : ¬(t = "" ∨ q = 0 ∨ (some P : Option ℚ) = none) := by
    push_neg
    exact ⟨htne, hqne, by simp⟩
  have hnotbuy : ¬(jsToLower row.meta.side = "long" ∨ jsToLower row.meta.side = "buy") := by
    rcases hside with h | h <;> rw [h] <;> decide
  simp only [processRow, hpnl, Bool.false_eq_true, if_false, htick, hqty, hprice,
    Option.getD_some, if_neg hguard2, if_neg hnotbuy, if_pos hside]
  constructor
  · simp only [hrem, hreal, if_pos hqne]
    rcases lt_or_le 0 (q - max (q - sumQty (st.longLots t)) 0) with h | h
    · rw [if_pos h]
    · rw [if_neg (not_lt.mpr h)]
      have hmaxle : max (q - sumQty (st.longLots t)) 0 ≤ q :=
        max_le (by linarith) (le_of_lt hQpos)
      have hmaxq : max (q - sumQty (st.longLots t)) 0 = q :=
        le_antisymm hmaxle (by linarith)
      have hqnil : st.longLots t = [] := by
        by_contra hne
        have hSpos := sumQty_pos_of_ne_nil _ hwfq hne
        rcases max_cases (q - sumQty (st.longLots t)) 0 with ⟨hm, _⟩ | ⟨hm, _⟩ <;>
          rw [hm] at hmaxq <;> linarith
      rw [hmaxq, hqnil]
      simp [specFifoRealized]
  · intro hpv
    simp only [hrem]
    by_cases hpos : 0 < max (q - sumQty (st.longLots t)) 0
    · rw [if_pos hpos, if_pos hpos]
      simp [updateMap, hqne, hpv]
    · rw [if_neg hpos, if_neg hpos]

/-- C2: for a Long-side (buy) fill of quantity q at price P during FIFO
reconciliation, the ticker's Short queue is consumed oldest-lot-first,
contributing (lot.price − P) × lot.multiplier − lot.feePerUnit per matched
unit up to the matched quantity (the row's PnL is that sum minus the
proportional share of the row's own commission), and the unmatched remainder
max(q − total short quantity, 0), when positive, is appended as a new Lot at
price P to the end of the ticker's Long queue; symmetrically a Short-side
(sell) fill consumes the Long queue with (P − lot.price) per unit and
appends any remainder to the Short queue. -/
theorem c2_fill_matching :
    (∀ (st : FifoState) (row : ParsedCsvRow) (t : String) (q P : ℚ),
      row.trade.pnl = none → row.trade.ticker = some t → t ≠ "" →
      row.meta.qty = some q → 0 < q → row.meta.fillPrice = some P →
      (jsToLower row.meta.side = "long" ∨ jsToLower row.meta.side = "buy") →
      row.meta.pointValue ≠ 0 →
      (∀ lot ∈ st.shortLots t, 0 < lot.qty ∧ lot.multiplier ≠ 0) →
      (processRow st row).1.trade.pnl =
        some (specFifoRealized P false q (st.shortLots t) -
          row.meta.totalFee * ((q - max (q - sumQty (st.shortLots t)) 0) / q)) ∧
      (processRow st row).2.longLots t =
        (if 0 < max (q - sumQty (st.shortLots t)) 0 then
          st.longLots t ++ [⟨max (q - sumQty (st.shortLots t)) 0, P,
            row.meta.totalFee / q, row.meta.pointValue⟩]
        else st.longLots t)) ∧
    (∀ (st : FifoState) (row : ParsedCsvRow) (t : String) (q P : ℚ),
      row.trade.pnl = none → row.trade.ticker = some t → t ≠ "" →
      row.meta.qty = some q → 0 < q → row.meta.fillPrice = some P →
      (jsToLower row.meta.side = "short" ∨ jsToLower row.meta.side = "sell") →
      row.meta.pointValue ≠ 0 →
      (∀ lot ∈ st.longLots t, 0 < lot.qty ∧ lot.multiplier ≠ 0) →
      (processRow st row).1.trade.pnl =
        some (specFifoRealized P true q (st.longLots t) -
          row.meta.totalFee * ((q - max (q - sumQty (st.longLots t)) 0) / q)) ∧
      (processRow st row).2.shortLots t =
        (if 0 < max (q - sumQty (st.longLots t)) 0 then
          st.shortLots t ++ [⟨max (q - sumQty (st.longLots t)) 0, P,
            row.meta.totalFee / q, row.meta.pointValue⟩]
        else st.shortLots t)) :=
  ⟨fun st row t q P h1 h2 h3 h4 h5 h6 h7 h8 h9 =>
      ⟨(c2_buy_case st row t q P h1 h2 h3 h4 h5 h6 h7 h9).1,
       (c2_buy_case st row t q P h1 h2 h3 h4 h5 h6 h7 h9).2 h8⟩,
   fun st row t q P h1 h2 h3 h4 h5 h6 h7 h8 h9 =>
      ⟨(c2_sell_case st row t q P h1 h2 h3 h4 h5 h6 h7 h9).1,
       (c2_sell_case st row t q P h1 h2 h3 h4 h5 h6 h7 h9).2 h8⟩⟩

/-- C2, witness: a buy of 2 NQ at 100 with total commission 2 against empty
queues realizes 0 and opens the lot (2, 100, 1, 20) at the end of the Long
queue. -/
theorem c2_fill_matching_witness :
    (processRow initFifoState wRow1).1.trade.pnl = some 0 ∧
    (processRow initFifoState wRow1).2.longLots "NQ" = [⟨2, 100, 1, 20⟩] := by
  have h := c2_fill_matching.1 initFifoState wRow1 "NQ" 2 100 rfl rfl (by decide) rfl
    (by norm_num) rfl (Or.inr (by decide)) (by decide) (by simp [initFifoState])
  constructor
  · have h1 := h.1
    norm_num [initFifoState, specFifoRealized, sumQty] at h1
    exact h1
  · have h2 := h.2
    norm_num [initFifoState, sumQty] at h2
    convert h2 using 2
    norm_num [wRow1]


/-! ### C9 and C1 helpers: queue-map membership, sell-branch queue readback -/

theorem mem_updateMap_elim {m : String → List Lot} {t t' : String} {v : List Lot} {lot : Lot}
    (h : lot ∈ updateMap m t v t') : lot ∈ v ∨ lot ∈ m t' := by
  unfold updateMap at h
  by_cases ht : t' = t
  · rw [if_pos ht] at h
    exact Or.inl h
  · rw [if_neg ht] at h
    exact Or.inr h

/-- In the sell branch, the ticker's Long queue after the fill is the queue
left by `closeLots` filtered to positive quantities (or emptied when
`closeLots` consumed it entirely). -/
theorem processRow_sell_longQueue (st : FifoState) (row : ParsedCsvRow) (t : String) (q P : ℚ)
    (hpnlN : row.trade.pnl = none)
    (htick : row.trade.ticker = some t) (htne : t ≠ "")
    (hqty : row.meta.qty = some q) (hQpos : 0 < q)
    (hprice : row.meta.fillPrice = some P)
    (hside : jsToLower row.meta.side = "short" ∨ jsToLower row.meta.side = "sell") :
    (processRow st row).2.longLots t =
      (if (closeLots (st.longLots t) q P true).2.2 ≠ [] then
        ((closeLots (st.longLots t) q P true).2.2).filter (fun lot => 0 < lot.qty)
      else []) := by
  have hpnl : (row.trade.pnl).isSome = false := by rw [hpnlN]; rfl
  have hqne : q ≠ 0 := ne_of_gt hQpos
  have hguard2 : ¬(t = "" ∨ q = 0 ∨ (some P : Option ℚ) = none) := by
    push_neg
    exact ⟨htne, hqne, by simp⟩
  have hnotbuy : ¬(jsToLower row.meta.side = "long" ∨ jsToLower row.meta.side = "buy") := by
    rcases hside with h | h <;> rw [h] <;> decide
  simp only [processRow, hpnl, Bool.false_eq_true, if_false, htick, hqty, hprice,
    Option.getD_some, if_neg hguard2, if_neg hnotbuy, if_pos hside]
  by_cases hne : (closeLots (st.longLots t) q P true).2.2 ≠ []
  · rw [if_pos hne, if_pos hne]
    simp [updateMap]
  · rw [if_neg hne, if_neg hne]
    simp [updateMap]

/-- C1, amended: for a ticker whose Short queue AND Long queue are both
empty, processing a Long-side fill of quantity Q at price P with total
commission F × Q, followed by a Short-side fill of quantity Q at price P2
with zero commission, assigns the opening row PnL 0, assigns the closing row
realized PnL (P2 − P) × Q × m − F × Q (m the opening fill's multiplier), and
leaves the ticker's Long queue empty.  (The original claim assumed only an
empty Short queue; a pre-existing Long lot is matched first by FIFO and
falsifies it — see the counterexample.) -/
theorem c1_round_trip (st : FifoState) (row1 row2 : ParsedCsvRow) (t : String)
    (Q P P2 F m : ℚ)
    (hlong : st.longLots t = []) (hshort : st.shortLots t = [])
    (h1pnl : row1.trade.pnl = none) (h1t : row1.trade.ticker = some t) (htne : t ≠ "")
    (h1q : row1.meta.qty = some Q) (hQ : 0 < Q)
    (h1p : row1.meta.fillPrice = some P)
    (h1fee : row1.meta.totalFee = F * Q)
    (h1side : jsToLower row1.meta.side = "long" ∨ jsToLower row1.meta.side = "buy")
    (h1m : row1.meta.pointValue = m) (hm : m ≠ 0)
    (h2pnl : row2.trade.pnl = none) (h2t : row2.trade.ticker = some t)
    (h2q : row2.meta.qty = some Q) (h2p : row2.meta.fillPrice = some P2)
    (h2fee : row2.meta.totalFee = 0)
    (h2side : jsToLower row2.meta.side = "short" ∨ jsToLower row2.meta.side = "sell") :
    (processRow st row1).1.trade.pnl = some 0 ∧
    (processRow (processRow st row1).2 row2).1.trade.pnl =
      some ((P2 - P) * Q * m - F * Q) ∧
    (processRow (processRow st row1).2 row2).2.longLots t = [] := by
  have hQne : Q ≠ 0 := ne_of_gt hQ
  have hwf1 : ∀ lot ∈ st.shortLots t, 0 < lot.qty ∧ lot.multiplier ≠ 0 := by
    rw [hshort]
    intro lot hl
    simp at hl
  have hb := c2_buy_case st row1 t Q P h1pnl h1t htne h1q hQ h1p h1side hwf1
  have hpnl1 : (processRow st row1).1.trade.pnl = some 0 := by
    rw [hb.1, hshort]
    simp [specFifoRealized, sumQty, max_eq_left hQ.le]
  have hpv1 : row1.meta.pointValue ≠ 0 := by
    rw [h1m]
    exact hm
  have hqueue1 : (processRow st row1).2.longLots t = [⟨Q, P, F, m⟩] := by
    rw [hb.2 hpv1, hshort, hlong]
    rw [h1fee, h1m]
    simp only [sumQty, List.foldr_nil, sub_zero, max_eq_left hQ.le, if_pos hQ,
      List.nil_append]
    rw [mul_div_cancel_right₀ F hQne]
  have hwf2 : ∀ lot ∈ (processRow st row1).2.longLots t, 0 < lot.qty ∧ lot.multiplier ≠ 0 := by
    rw [hqueue1]
    intro lot hl
    rcases List.mem_singleton.mp hl with rfl
    exact ⟨hQ, hm⟩
  have hs := c2_sell_case (processRow st row1).2 row2 t Q P2 h2pnl h2t htne h2q hQ h2p
    h2side hwf2
  have heps : (0:ℚ) ≤ eps := by norm_num [eps]
  refine ⟨hpnl1, ?_, ?_⟩
  · rw [hs.1, hqueue1, h2fee]
    simp only [specFifoRealized, min_self, sub_self, zero_mul, zero_sub, zero_add, add_zero,
      zero_div, mul_zero, sub_zero]
    norm_num
  · rw [processRow_sell_longQueue (processRow st row1).2 row2 t Q P2 h2pnl h2t htne h2q hQ
      h2p h2side]
    have hcq : (closeLots [(⟨Q, P, F, m⟩ : Lot)] Q P2 true).2.2 = ([] : List Lot) := by
      simp only [closeLots, closeLotsGo]
      rw [if_neg (not_le.mpr hQ)]
      simp only [min_self, sub_self]
      rw [if_pos heps]
    rw [hqueue1, hcq]
    simp

/-- C1, counterexample: with an empty Short queue but a pre-existing Long
lot (1 @ 50) on ticker T, buying 1 @ 100 and then selling 1 @ 105 (both
commission-free, multiplier 1) gives the closing row PnL 55 — the sell
matched the OLDEST lot (50), not the newly opened one — instead of the
claimed (105 − 100) × 1 × 1 − 0 × 1 = 5, and leaves the Long queue
non-empty. -/
theorem c1_counterexample :
    cexState.shortLots "T" = [] ∧
    (processRow cexState cexRow1).1.trade.pnl = some 0 ∧
    (processRow (processRow cexState cexRow1).2 cexRow2).1.trade.pnl = some 55 ∧
    (processRow (processRow cexState cexRow1).2 cexRow2).1.trade.pnl ≠
      some ((105 - 100) * 1 * 1 - 0 * 1) ∧
    (processRow (processRow cexState cexRow1).2 cexRow2).2.longLots "T" ≠ [] := by
  have hshort : cexState.shortLots "T" = [] := rfl
  have hlongT : cexState.longLots "T" = [⟨1, 50, 0, 1⟩] := by norm_num [cexState]
  have hwf1 : ∀ lot ∈ cexState.shortLots "T", 0 < lot.qty ∧ lot.multiplier ≠ 0 := by
    rw [hshort]
    intro lot hl
    simp at hl
  have hb := c2_buy_case cexState cexRow1 "T" 1 100 rfl rfl (by decide) rfl (by norm_num)
    rfl (Or.inr (by decide)) hwf1
  have hpnl1 : (processRow cexState cexRow1).1.trade.pnl = some 0 := by
    rw [hb.1, hshort]
    simp [specFifoRealized, sumQty]
  have hqueue1 : (processRow cexState cexRow1).2.longLots "T" =
      [⟨1, 50, 0, 1⟩, ⟨1, 100, 0, 1⟩] := by
    rw [hb.2 (by decide), hshort, hlongT]
    norm_num [sumQty, cexRow1]
  have hwf2 : ∀ lot ∈ (processRow cexState cexRow1).2.longLots "T",
      0 < lot.qty ∧ lot.multiplier ≠ 0 := by
    rw [hqueue1]
    intro lot hl
    rcases List.mem_cons.mp hl with rfl | hl2
    · exact ⟨by norm_num, by norm_num⟩
    · rcases List.mem_singleton.mp hl2 with rfl
      exact ⟨by norm_num, by norm_num⟩
  have hs := c2_sell_case (processRow cexState cexRow1).2 cexRow2 "T" 1 105 rfl rfl
    (by decide) rfl (by norm_num) rfl (Or.inr (by decide)) hwf2
  have hpnl2 : (processRow (processRow cexState cexRow1).2 cexRow2).1.trade.pnl =
      some 55 := by
    rw [hs.1, hqueue1]
    norm_num [specFifoRealized, sumQty, min_def, max_def, cexRow2]
  have hqueue2 : (processRow (processRow cexState cexRow1).2 cexRow2).2.longLots "T" =
      [⟨1, 100, 0, 1⟩] := by
    rw [processRow_sell_longQueue (processRow cexState cexRow1).2 cexRow2 "T" 1 105 rfl rfl
      (by decide) rfl (by norm_num) rfl (Or.inr (by decide))]
    rw [hqueue1]
    have hcq : (closeLots [(⟨1, 50, 0, 1⟩ : Lot), ⟨1, 100, 0, 1⟩] 1 105 true).2.2 =
        [(⟨1, 100, 0, 1⟩ : Lot)] := by
      norm_num [closeLots, closeLotsGo, eps, min_def]
    rw [hcq]
    norm_num [List.filter]
  refine ⟨hshort, hpnl1, hpnl2, ?_, ?_⟩
  · rw [hpnl2]
    norm_num
  · rw [hqueue2]
    simp

/-- The per-fill step keeps every queue's lots strictly positive: appended
lots carry the positive unmatched remainder, and consumed queues are
filtered to positive quantities. -/
theorem stateWf_processRow (st : FifoState) (row : ParsedCsvRow) (h : stateWf st) :
    stateWf (processRow st row).2 := by
  simp only [processRow]
  split
  · exact h
  split
  · exact h
  split
  · intro t'
    dsimp only
    constructor
    · intro lot hl
      split at hl
      next hc =>
        rcases mem_updateMap_elim hl with hv | hm
        · rcases List.mem_append.mp hv with hold | hnew
          · exact (h _).1 lot hold
          · rcases List.mem_singleton.mp hnew with rfl
            exact hc
        · exact (h t').1 lot hm
      next hc => exact (h t').1 lot hl
    · intro lot hl
      split at hl
      next hc =>
        rcases mem_updateMap_elim hl with hv | hm
        · have hmf := List.mem_filter.mp hv
          simpa using hmf.2
        · exact (h t').2 lot hm
      next hc =>
        rcases mem_updateMap_elim hl with hv | hm
        · simp at hv
        · exact (h t').2 lot hm
  split
  · intro t'
    dsimp only
    constructor
    · intro lot hl
      split at hl
      next hc =>
        rcases mem_updateMap_elim hl with hv | hm
        · have hmf := List.mem_filter.mp hv
          simpa using hmf.2
        · exact (h t').1 lot hm
      next hc =>
        rcases mem_updateMap_elim hl with hv | hm
        · simp at hv
        · exact (h t').1 lot hm
    · intro lot hl
      split at hl
      next hc =>
        rcases mem_updateMap_elim hl with hv | hm
        · rcases List.mem_append.mp hv with hold | hnew
          · exact (h _).2 lot hold
          · rcases List.mem_singleton.mp hnew with rfl
            exact hc
        · exact (h t').2 lot hm
      next hc => exact (h t').2 lot hl
  · exact h

theorem stateWf_processAll :
    ∀ (l : List (Nat × ParsedCsvRow)) (st : FifoState), stateWf st →
      stateWf (processAll st l).2 := by
  intro l
  induction l with
  | nil =>
    intro st h
    exact h
  | cons a rest ih =>
    intro st h
    cases a with
    | mk i r =>
      simp only [processAll]
      exact ih _ (stateWf_processRow st r h)

theorem stateWf_init : stateWf initFifoState := by
  intro t
  constructor <;> intro lot hl <;> simp [initFifoState] at hl

/-- C9: every lot in every queue keeps strictly positive quantity: the
per-fill step preserves the invariant for any fill (a newly appended lot's
quantity is the positive unmatched remainder), a lot remaining in a queue
after `closeLots` is either an untouched original or has quantity strictly
above the 1e-8 removal threshold (a lot consumed down to at most 1e-8 is
removed before the loop returns), and the invariant holds after every prefix
of a reconciliation run started from empty queues. -/
theorem c9_lot_invariant :
    (∀ (st : FifoState) (row : ParsedCsvRow), stateWf st → stateWf (processRow st row).2) ∧
    (∀ (lots : List Lot) (q exitPrice : ℚ) (b : Bool),
      ∀ lot ∈ (closeLots lots q exitPrice b).2.2, lot ∈ lots ∨ eps < lot.qty) ∧
    (∀ (dparse : String → Option ℚ) (rows : List ParsedCsvRow) (k : ℕ),
      stateWf (processAll initFifoState ((sortRowsByTs dparse rows.enum).take k)).2) :=
  ⟨fun st row h => stateWf_processRow st row h,
   fun lots q p b lot hl => closeLotsGo_queue_mem lots q 0 p b lot hl,
   fun _ _ _ => stateWf_processAll _ _ stateWf_init⟩

/-- C9, witness: the step invariant applied at a concrete state holding one
positive lot, and the queue left by a concrete partial close (the reduced lot
of quantity 1 stays because 1 is above the threshold). -/
theorem c9_lot_invariant_witness :
    stateWf (processRow cexState cexRow1).2 ∧
    ((⟨1, 100, 0, 1⟩ : Lot) ∈ [(⟨2, 100, 0, 1⟩ : Lot)] ∨ eps < (⟨1, 100, 0, 1⟩ : Lot).qty) := by
  constructor
  · apply c9_lot_invariant.1 cexState cexRow1
    intro t
    constructor
    · intro lot hl
      simp only [cexState] at hl
      split at hl
      · rcases List.mem_singleton.mp hl with rfl
        norm_num
      · simp at hl
    · intro lot hl
      simp only [cexState] at hl
      simp at hl
  · apply c9_lot_invariant.2.1 [⟨2, 100, 0, 1⟩] 1 105 true ⟨1, 100, 0, 1⟩
    have hcq : (closeLots [(⟨2, 100, 0, 1⟩ : Lot)] 1 105 true).2.2 =
        [(⟨1, 100, 0, 1⟩ : Lot)] := by
      norm_num [closeLots, closeLotsGo, eps, min_def]
    rw [hcq]
    exact List.mem_singleton.mpr rfl

/-- C1, witness: from empty queues, buy 2 NQ at 100 with commission 2
(F = 1), sell 2 at 105 commission-free: opening PnL 0, closing PnL
(105 − 100) × 2 × 20 − 1 × 2 = 198, Long queue empty. -/
theorem c1_round_trip_witness :
    (processRow initFifoState wRow1).1.trade.pnl = some 0 ∧
    (processRow (processRow initFifoState wRow1).2 wRow2).1.trade.pnl =
      some ((105 - 100) * 2 * 20 - 1 * 2) ∧
    (processRow (processRow initFifoState wRow1).2 wRow2).2.longLots "NQ" = [] :=
  c1_round_trip initFifoState wRow1 wRow2 "NQ" 2 100 105 1 20 rfl rfl rfl rfl (by decide)
    rfl (by norm_num) rfl (by norm_num [wRow1]) (Or.inr (by decide)) rfl (by norm_num)
    rfl rfl rfl rfl rfl (Or.inr (by decide))

/-! ### C3 and C10: reconciliation totality and frame -/

/-- The per-fill step relates each input row to its output row by the frame
relation: only `pnl` changes, it is always present afterwards, rows entering
with a numeric `pnl` are untouched, and rows with missing data get `pnl = 0`. -/
theorem frameOk_processRow (st : FifoState) (r : ParsedCsvRow) :
    frameOk r (processRow st r).1 := by
  by_cases hp : (r.trade.pnl).isSome = true
  · have heq : processRow st r = (r, st) := by
      rw [processRow, if_pos hp]
    rw [heq]
    refine ⟨?_, hp, fun _ => rfl, ?_⟩
    · cases r with
      | mk trade meta => cases trade; rfl
    · intro hnone
      rw [hnone] at hp
      simp at hp
  · rw [frameOk, processRow, if_neg hp]
    by_cases hg : r.trade.ticker.getD "" = "" ∨ r.meta.qty.getD 0 = 0 ∨
        r.meta.fillPrice = none
    · rw [if_pos hg]
      exact ⟨rfl, rfl, fun h => absurd h hp, fun _ _ => rfl⟩
    · rw [if_neg hg]
      dsimp only
      split
      · exact ⟨rfl, rfl, fun h => absurd h hp, fun _ hmd => absurd hmd hg⟩
      split
      · exact ⟨rfl, rfl, fun h => absurd h hp, fun _ hmd => absurd hmd hg⟩
      · exact ⟨rfl, rfl, fun h => absurd h hp, fun _ hmd => absurd hmd hg⟩

theorem processAll_forall2 :
    ∀ (l : List (Nat × ParsedCsvRow)) (st : FifoState),
      List.Forall₂ (fun p q => p.1 = q.1 ∧ frameOk p.2 q.2) l (processAll st l).1 := by
  intro l
  induction l with
  | nil =>
    intro st
    exact List.Forall₂.nil
  | cons a rest ih =>
    intro st
    cases a with
    | mk i r =>
      simp only [processAll]
      exact List.Forall₂.cons ⟨rfl, frameOk_processRow st r⟩ (ih _)

theorem forall2_mem_left {α β : Type} {R : α → β → Prop} :
    ∀ {l : List α} {l' : List β}, List.Forall₂ R l l' → ∀ a ∈ l, ∃ b ∈ l', R a b := by
  intro l l' h
  induction h with
  | nil =>
    intro a ha
    simp at ha
  | cons hR hrest ih =>
    intro a ha
    rcases List.mem_cons.mp ha with rfl | ha'
    · exact ⟨_, List.mem_cons_self _ _, hR⟩
    · obtain ⟨b, hb, hRb⟩ := ih a ha'
      exact ⟨b, List.mem_cons_of_mem _ hb, hRb⟩

theorem forall2_fst_eq :
    ∀ {l l' : List (Nat × ParsedCsvRow)},
      List.Forall₂ (fun p q => p.1 = q.1 ∧ frameOk p.2 q.2) l l' →
      l.map Prod.fst = l'.map Prod.fst := by
  intro l l' h
  induction h with
  | nil => rfl
  | cons hR hrest ih => simp [hR.1, ih]

theorem perm_orderedInsertTs (dparse : String → Option ℚ) (a : Nat × ParsedCsvRow) :
    ∀ l, List.Perm (orderedInsertTs dparse a l) (a :: l) := by
  intro l
  induction l with
  | nil => exact List.Perm.refl _
  | cons b rest ih =>
    rw [orderedInsertTs]
    split
    · exact List.Perm.refl _
    · exact (ih.cons b).trans (List.Perm.swap a b rest)

theorem perm_sortRowsByTs (dparse : String → Option ℚ) :
    ∀ l, List.Perm (sortRowsByTs dparse l) l := by
  intro l
  induction l with
  | nil => exact List.Perm.refl _
  | cons a rest ih =>
    rw [sortRowsByTs]
    exact (perm_orderedInsertTs dparse a _).trans (ih.cons a)

theorem find?_fst_eq_of_mem {l : List (Nat × ParsedCsvRow)} {p : Nat × ParsedCsvRow}
    (hnd : (l.map Prod.fst).Nodup) (hm : p ∈ l) :
    l.find? (fun q => q.1 == p.1) = some p := by
  induction l with
  | nil => simp at hm
  | cons a rest ih =>
    rcases List.mem_cons.mp hm with rfl | hm'
    · have hc : (fun q : Nat × ParsedCsvRow => q.1 == p.1) p = true := by simp
      have hstep : List.find? (fun q : Nat × ParsedCsvRow => q.1 == p.1) (p :: rest) =
          some p := List.find?_cons_of_pos _ hc
      exact hstep
    · have hne : a.1 ≠ p.1 := by
        intro he
        rw [List.map_cons, List.nodup_cons] at hnd
        exact hnd.1 (he ▸ List.mem_map_of_mem Prod.fst hm')
      have hcond : ¬((fun q : Nat × ParsedCsvRow => q.1 == p.1) a = true) := by
        simpa using hne
      have hstep : List.find? (fun q : Nat × ParsedCsvRow => q.1 == p.1) (a :: rest) =
          List.find? (fun q : Nat × ParsedCsvRow => q.1 == p.1) rest :=
        List.find?_cons_of_neg _ hcond
      rw [hstep]
      apply ih ?_ hm'
      rw [List.map_cons, List.nodup_cons] at hnd
      exact hnd.2

/-- Master frame lemma: `deriveFifoPnl` preserves length, and each output row
is its input row's processed version (position by position, through the sort
and the write-back by original index). -/
theorem deriveFifoPnl_frame (dparse : String → Option ℚ) (rows : List ParsedCsvRow) :
    (deriveFifoPnl dparse rows).length = rows.length ∧
    ∀ i (h1 : i < rows.length) (h2 : i < (deriveFifoPnl dparse rows).length),
      frameOk rows[i] (deriveFifoPnl dparse rows)[i] := by
  have hperm := perm_sortRowsByTs dparse rows.enum
  have hf2 := processAll_forall2 (sortRowsByTs dparse rows.enum) initFifoState
  have hfst : (sortRowsByTs dparse rows.enum).map Prod.fst =
      ((processAll initFifoState (sortRowsByTs dparse rows.enum)).1).map Prod.fst :=
    forall2_fst_eq hf2
  have hndorig : (rows.enum.map Prod.fst).Nodup := List.nodup_enum_map_fst rows
  have hndord : ((sortRowsByTs dparse rows.enum).map Prod.fst).Nodup :=
    ((hperm.map Prod.fst).nodup_iff).mpr hndorig
  have hndproc : (((processAll initFifoState (sortRowsByTs dparse rows.enum)).1).map
      Prod.fst).Nodup := hfst ▸ hndord
  have hlen : (deriveFifoPnl dparse rows).length = rows.length := by
    simp [deriveFifoPnl, runFifo, List.enum_length]
  refine ⟨hlen, ?_⟩
  intro i h1 h2
  have hie : i < rows.enum.length := by
    rw [List.enum_length]
    exact h1
  have hei : rows.enum[i] = (i, rows[i]) := List.getElem_enum rows i hie
  have hmem : (i, rows[i]) ∈ rows.enum := hei ▸ List.getElem_mem hie
  have hmemord : (i, rows[i]) ∈ sortRowsByTs dparse rows.enum := hperm.mem_iff.mpr hmem
  obtain ⟨q, hq, hiq, hfr⟩ := forall2_mem_left hf2 (i, rows[i]) hmemord
  have hfind : (processAll initFifoState (sortRowsByTs dparse rows.enum)).1.find?
      (fun z => z.1 == i) = some q := by
    have h := find?_fst_eq_of_mem hndproc hq
    rw [← hiq] at h
    exact h
  show frameOk rows[i] (deriveFifoPnl dparse rows)[i]
  have hout : (deriveFifoPnl dparse rows)[i] = q.2 := by
    simp only [deriveFifoPnl, runFifo]
    rw [List.getElem_map]
    rw [List.getElem_enum]
    simp only [hfind]
  rw [hout]
  exact hfr

/-- C3: after FIFO reconciliation every row's PnL holds a numeric value —
rows entering with a numeric PnL keep it, and a row missing its ticker,
quantity, or fill price (with no pre-set PnL) is assigned PnL = 0; processing
never fails. -/
theorem c3_pnl_always_assigned (dparse : String → Option ℚ) (rows : List ParsedCsvRow) :
    (deriveFifoPnl dparse rows).length = rows.length ∧
    (∀ r ∈ deriveFifoPnl dparse rows, (r.trade.pnl).isSome = true) ∧
    (∀ i (h1 : i < rows.length) (h2 : i < (deriveFifoPnl dparse rows).length),
      (∀ v, rows[i].trade.pnl = some v → (deriveFifoPnl dparse rows)[i].trade.pnl = some v) ∧
      (rows[i].trade.pnl = none → missingFifoData rows[i] →
        (deriveFifoPnl dparse rows)[i].trade.pnl = some 0)) := by
  obtain ⟨hlen, hframe⟩ := deriveFifoPnl_frame dparse rows
  refine ⟨hlen, ?_, ?_⟩
  · intro r hr
    obtain ⟨i, hi, heq⟩ := List.mem_iff_getElem.mp hr
    have h1 : i < rows.length := by omega
    have hf := hframe i h1 hi
    rw [← heq]
    exact hf.2.1
  · intro i h1 h2
    have hf := hframe i h1 h2
    constructor
    · intro v hv
      have hSome : (rows[i].trade.pnl).isSome = true := by
        rw [hv]
        rfl
      rw [hf.2.2.1 hSome, hv]
    · exact hf.2.2.2

/-- C3, witness: a row with no ticker, quantity, or price and no pre-set PnL
comes out of reconciliation with PnL 0. -/
theorem c3_pnl_always_assigned_witness :
    ((deriveFifoPnl dparse0 [cmRow]).get ⟨0, by decide⟩).trade.pnl = some 0 := by
  have h := ((c3_pnl_always_assigned dparse0 [cmRow]).2.2 0 (by norm_num) (by decide)).2
    rfl (by decide)
  exact h

/-- C10: FIFO reconciliation writes only the PnL field — every output row
has the same metadata and the same trade fields except possibly `pnl` as its
input row, and a row whose PnL was already numeric on entry is returned
entirely unchanged. -/
theorem c10_frame (dparse : String → Option ℚ) (rows : List ParsedCsvRow) :
    (deriveFifoPnl dparse rows).length = rows.length ∧
    (∀ i (h1 : i < rows.length) (h2 : i < (deriveFifoPnl dparse rows).length),
      (deriveFifoPnl dparse rows)[i].meta = rows[i].meta ∧
      (deriveFifoPnl dparse rows)[i].trade =
        { rows[i].trade with pnl := (deriveFifoPnl dparse rows)[i].trade.pnl } ∧
      ((rows[i].trade.pnl).isSome = true → (deriveFifoPnl dparse rows)[i] = rows[i])) := by
  obtain ⟨hlen, hframe⟩ := deriveFifoPnl_frame dparse rows
  refine ⟨hlen, fun i h1 h2 => ?_⟩
  have hf := hframe i h1 h2
  refine ⟨?_, ?_, hf.2.2.1⟩
  · conv_lhs => rw [hf.1]
    rfl
  · conv_lhs => rw [hf.1]
    rfl

/-- C10, witness: a row entering with numeric PnL 7 is returned unchanged. -/
theorem c10_frame_witness :
    (deriveFifoPnl dparse0 [pRow]).get ⟨0, by decide⟩ = pRow := by
  have h := ((c10_frame dparse0 [pRow]).2 0 (by norm_num) (by decide)).2.2 rfl
  exact h


end TradeWise
